import Mathlib

/-!
Shallow embedding of the record core of the LF key/value store
(pkg/lf/record.go), together with the wire helpers the record codec uses.
Byte strings are modelled as lists of natural numbers; Go machine integers
are naturals with explicit reductions modulo 2^32 / 2^64 wherever the Go
arithmetic could wrap or truncate.  Cryptographic primitives that live
outside the record core (SHA3-256, SHA-256, Shandwich256, AES-CFB, LZW,
selector and owner key operations, Wharrgarbl verification) are taken as
parameters, since the record core only composes them.
-/

deriving instance DecidableEq for Except

namespace LF

/-- Byte strings: Go byte slices, as lists of naturals.  Encoders only emit
values below 256; decoders are total on all naturals. -/
abbrev Bytes := List Nat

/-- RecordMaxSize from record.go: global maximum serialized record size. -/
def RecordMaxSize : Nat := 65536

/-- WharrgarblOutputSize, the fixed byte size of a Wharrgarbl proof-of-work
output.  Modelled from the spec: wharrgarbl.go is not under src/; the spec
says only that the output size is a fixed algorithm-specific constant, fixed
here as the 20 bytes of two 64-bit collision indexes plus a 32-bit
difficulty.  No claim depends on the exact value. -/
def WharrgarblOutputSize : Nat := 20

/-- Base-128 varint encoding, written with a structural fuel argument (the
first one) so that the kernel can evaluate it; fuel n is always enough to
encode the value n. -/
def putUvarintFuel : Nat → Nat → Bytes
  | 0, n => [n % 128]
  | fuel + 1, n => if n < 128 then [n] else (n % 128 + 128) :: putUvarintFuel fuel (n / 128)

/-- Go binary.PutUvarint, as used by the repository helper writeUVarint
(wire helpers are not under src/).  Modelled from the spec: all varuints are
little-endian base-128, as produced by a standard unsigned varint encoder. -/
def putUvarint (n : Nat) : Bytes := putUvarintFuel n n

/-- Go binary.ReadUvarint's loop: at most 10 bytes, little-endian base-128,
with the overflow checks of the Go standard library (a 10th byte above 1, or
a 10th continuation byte, is an overflow error, modelled as none). -/
def readUvarintLoop : Bytes → Nat → Nat → Nat → Option (Nat × Bytes)
  | [], _, _, _ => none
  | b :: bs, x, s, i =>
    if b < 128 then
      if i = 9 ∧ 1 < b then none
      else some (x + b * 2 ^ s, bs)
    else if 9 ≤ i then none
    else readUvarintLoop bs (x + b % 128 * 2 ^ s) (s + 7) (i + 1)

/-- Go binary.ReadUvarint on a byte stream, returning the decoded value and
the unconsumed remainder. -/
def readUvarint (bs : Bytes) : Option (Nat × Bytes) := readUvarintLoop bs 0 0 0

/-- io.ReadFull into a buffer of n bytes: n bytes off the stream, or none
when the stream is shorter. -/
def takeExact : Nat → Bytes → Option (Bytes × Bytes)
  | 0, bs => some ([], bs)
  | _ + 1, [] => none
  | n + 1, b :: bs =>
    match takeExact n bs with
    | none => none
    | some (xs, rest) => some (b :: xs, rest)

theorem takeExact_append (xs rest : Bytes) : takeExact xs.length (xs ++ rest) = some (xs, rest) := by
  induction xs with
  | nil => rfl
  | cons b bs ih => simp [takeExact, ih]

theorem readUvarintLoop_putUvarintFuel (fuel : Nat) : ∀ n x i rest, n ≤ fuel → i ≤ 9 →
    n < 2 ^ (64 - 7 * i) →
    readUvarintLoop (putUvarintFuel fuel n ++ rest) x (7 * i) i = some (x + n * 2 ^ (7 * i), rest) := by
  induction fuel with
  | zero =>
    intro n x i rest hn hi hb
    have hn0 : n = 0 := Nat.le_zero.mp hn
    subst hn0
    simp [putUvarintFuel, readUvarintLoop]
  | succ fuel ih =>
    intro n x i rest hn hi hb
    by_cases h128 : n < 128
    · have hcond : ¬(i = 9 ∧ 1 < n) := by
        rintro ⟨hi9, hb1⟩
        subst hi9
        simp only [show 64 - 7 * 9 = 1 by norm_num, pow_one] at hb
        omega
      simp [putUvarintFuel, readUvarintLoop, h128, hcond]
    · have hi8 : i ≤ 8 := by
        rcases Nat.lt_or_ge i 9 with h | h
        · omega
        · exfalso
          have hi9 : i = 9 := by omega
          subst hi9
          simp only [show 64 - 7 * 9 = 1 by norm_num, pow_one] at hb
          omega
      have hstep : putUvarintFuel (fuel + 1) n = (n % 128 + 128) :: putUvarintFuel fuel (n / 128) := by
        simp [putUvarintFuel, h128]
      have hble : ¬(n % 128 + 128 < 128) := by omega
      have hnine : ¬(9 ≤ i) := by omega
      have hdiv : n / 128 ≤ fuel := by
        have : n / 128 < n := Nat.div_lt_self (by omega) (by omega)
        omega
      have hpow : (2 : Nat) ^ (64 - 7 * i) = 2 ^ (64 - 7 * (i + 1)) * 128 := by
        have h7 : 64 - 7 * i = (64 - 7 * (i + 1)) + 7 := by omega
        rw [h7, pow_add]
        norm_num
      have hdivlt : n / 128 < 2 ^ (64 - 7 * (i + 1)) := by
        rw [Nat.div_lt_iff_lt_mul (by norm_num : (0:Nat) < 128)]
        calc n < 2 ^ (64 - 7 * i) := hb
        _ = 2 ^ (64 - 7 * (i + 1)) * 128 := hpow
      have hrec := ih (n / 128) (x + (n % 128) * 2 ^ (7 * i)) (i + 1) rest hdiv (by omega) hdivlt
      rw [hstep]
      simp only [List.cons_append, readUvarintLoop, if_neg hble, if_neg hnine]
      have hmod : (n % 128 + 128) % 128 = n % 128 := by omega
      rw [hmod]
      have h71 : 7 * i + 7 = 7 * (i + 1) := by ring
      rw [h71]
      simp only [List.append_eq]
      rw [hrec]
      have hsplit : n = 128 * (n / 128) + n % 128 := (Nat.div_add_mod n 128).symm
      have hpow2 : (2 : Nat) ^ (7 * (i + 1)) = 2 ^ (7 * i) * 128 := by
        have h7 : 7 * (i + 1) = 7 * i + 7 := by ring
        rw [h7, pow_add]
        norm_num
      congr 1
      rw [hpow2]
      conv_rhs => rw [hsplit]
      ring_nf

theorem readUvarint_putUvarint (n : Nat) (rest : Bytes) (h : n < 2 ^ 64) :
    readUvarint (putUvarint n ++ rest) = some (n, rest) := by
  have := readUvarintLoop_putUvarintFuel n n 0 0 rest le_rfl (by omega) (by simpa using h)
  simpa [readUvarint, putUvarint] using this

/-- recordBody from record.go: masked value, owner public bytes, optional
certificate record hash, concatenated 32-byte link hashes, and the
timestamp in seconds (a Go uint64, modelled as Nat). -/
structure RecordBody where
  MaskedValue : Bytes
  Owner : Bytes
  Certificate : Bytes
  Links : Bytes
  Timestamp : Nat
deriving DecidableEq

/-- Selector, the privacy-preserving record key.  Modelled from the spec:
selector.go is not under src/; per the spec a selector carries an ordinal
(a 64-bit sortable value) and a claim signature, and exposes canonical wire
bytes. -/
structure Selector where
  Ordinal : Nat
  Claim : Bytes
deriving DecidableEq

/-- Selector.MarshalTo / Selector.Bytes.  Modelled from the spec:
selector.go is not under src/; the canonical selector bytes are taken to be
the varint ordinal followed by the length-prefixed claim signature. -/
def selectorMarshal (s : Selector) : Bytes :=
  putUvarint s.Ordinal ++ putUvarint s.Claim.length ++ s.Claim

/-- Selector.UnmarshalFrom, the inverse stream decoder of selectorMarshal.
Modelled from the spec: length-prefixed fields are checked against
RecordMaxSize before allocating. -/
def selectorUnmarshal (bs : Bytes) : Option (Selector × Bytes) :=
  match readUvarint bs with
  | none => none
  | some (od, r1) =>
    match readUvarint r1 with
    | none => none
    | some (cl, r2) =>
      if RecordMaxSize < cl then none
      else
        match takeExact cl r2 with
        | none => none
        | some (claimBytes, rest) => some (⟨od, claimBytes⟩, rest)

/-- Record from record.go: the body plus selectors, work, work algorithm and
owner signature (the cached data / hash / id fields are derived caches and
are not part of the value). -/
structure Record where
  recordBody : RecordBody
  Selectors : List Selector
  Work : Bytes
  WorkAlgorithm : Nat
  Signature : Bytes
deriving DecidableEq

/-- Error kinds surfaced by the record codec and validator, per errors used
in record.go.  readFailed stands for the io errors (short read, varint
overflow) that the Go code passes through verbatim. -/
inductive RecordError where
  | markedIgnore
  | recordInvalid
  | unsupportedAlgorithm
  | readFailed
  | invalidParameter
  | selectorClaimCheckFailed
  | ownerSignatureCheckFailed
  | insufficientWork
deriving DecidableEq

/-- recordBody.marshalTo from record.go, as a function from the body to the
bytes it writes: flag byte (bit 0 = has certificate), length-prefixed masked
value, length-prefixed owner, the 32 certificate bytes when present, the
link count followed by count*32 link bytes (a single 0x00 count byte when
fewer than 32 link bytes are present), then the varint timestamp. -/
def recordBodyMarshal (rb : RecordBody) : Bytes :=
  (if rb.Certificate.length = 32 then [1] else [0])
  ++ putUvarint rb.MaskedValue.length ++ rb.MaskedValue
  ++ putUvarint rb.Owner.length ++ rb.Owner
  ++ (if rb.Certificate.length = 32 then rb.Certificate else [])
  ++ (if 32 ≤ rb.Links.length then
        putUvarint (rb.Links.length / 32) ++ rb.Links.take (rb.Links.length / 32 * 32)
      else [0])
  ++ putUvarint rb.Timestamp

/-- recordBody.sizeBytes from record.go: the serialized body length. -/
def recordBodySizeBytes (rb : RecordBody) : Nat := (recordBodyMarshal rb).length

/-- recordBody.unmarshalFrom from record.go.  Field length prefixes above
RecordMaxSize yield ErrorRecordInvalid; short reads and varint overflows are
io errors (readFailed).  The link count is multiplied by 32 in uint64
arithmetic, hence the explicit reduction modulo 2^64. -/
def recordBodyUnmarshal (bs : Bytes) : Except RecordError (RecordBody × Bytes) :=
  match bs with
  | [] => .error .readFailed
  | flags :: r0 =>
    match readUvarint r0 with
    | none => .error .readFailed
    | some (lv, r1) =>
      if RecordMaxSize < lv then .error .recordInvalid
      else
        match takeExact lv r1 with
        | none => .error .readFailed
        | some (maskedValue, r2) =>
          match readUvarint r2 with
          | none => .error .readFailed
          | some (lo, r3) =>
            if RecordMaxSize < lo then .error .recordInvalid
            else
              match takeExact lo r3 with
              | none => .error .readFailed
              | some (owner, r4) =>
                match (if flags % 2 = 1 then takeExact 32 r4 else some ([], r4)) with
                | none => .error .readFailed
                | some (cert, r5) =>
                  match readUvarint r5 with
                  | none => .error .readFailed
                  | some (lc, r6) =>
                    if lc = 0 then
                      match readUvarint r6 with
                      | none => .error .readFailed
                      | some (ts, r7) => .ok (⟨maskedValue, owner, cert, [], ts⟩, r7)
                    else
                      if RecordMaxSize < lc * 32 % 2 ^ 64 then .error .recordInvalid
                      else
                        match takeExact (lc * 32 % 2 ^ 64) r6 with
                        | none => .error .readFailed
                        | some (links, r7) =>
                          match readUvarint r7 with
                          | none => .error .readFailed
                          | some (ts, r8) => .ok (⟨maskedValue, owner, cert, links, ts⟩, r8)

/-- Record.MarshalTo from record.go (the uncached path): reserved version
byte 0x00, the body, the varint selector count and each selector's bytes,
the work algorithm byte, the raw work bytes, then the length-prefixed
signature. -/
def recordMarshal (r : Record) : Bytes :=
  0 :: recordBodyMarshal r.recordBody
  ++ putUvarint r.Selectors.length
  ++ (r.Selectors.map selectorMarshal).flatten
  ++ [r.WorkAlgorithm]
  ++ r.Work
  ++ putUvarint r.Signature.length
  ++ r.Signature

/-- The selector-reading loop of Record.UnmarshalFrom: a fixed count of
selectors off the stream. -/
def selectorsUnmarshal : Nat → Bytes → Option (List Selector × Bytes)
  | 0, bs => some ([], bs)
  | n + 1, bs =>
    match selectorUnmarshal bs with
    | none => none
    | some (s, r) =>
      match selectorsUnmarshal n r with
      | none => none
      | some (ss, rest) => some (s :: ss, rest)

/-- Big-endian 32-bit read, as binary.BigEndian.Uint32 applied to the four
bytes of the tombstone length field. -/
def be32 (d : Bytes) : Nat := d.foldl (fun a b => a * 256 + b) 0

/-- The tail of Record.UnmarshalFrom after the selectors: work algorithm
byte, fixed-size work for Wharrgarbl, and length-prefixed signature. -/
def recordUnmarshalTail (rb : RecordBody) (sels : List Selector) (walg : Nat) (work : Bytes)
    (r4 : Bytes) : Except RecordError Record × Bytes :=
  match readUvarint r4 with
  | none => (.error .readFailed, [])
  | some (siglen, r5) =>
    if RecordMaxSize < siglen then (.error .recordInvalid, r5)
    else
      match takeExact siglen r5 with
      | none => (.error .readFailed, [])
      | some (sig, r6) => (.ok ⟨rb, sels, work, walg, sig⟩, r6)

/-- Record.UnmarshalFrom from record.go.  Returns the decode outcome
together with the unconsumed remainder of the stream (the remainder is []
on the io-error paths, where the Go reader's position is unspecified;
it is exact on success, on the tombstone path, and on the early
selector-count rejection, which are the paths the claims are about). -/
def recordUnmarshal (bs : Bytes) : Except RecordError Record × Bytes :=
  match bs with
  | [] => (.error .readFailed, [])
  | hdrb :: r0 =>
    if hdrb = 255 then
      match takeExact 4 r0 with
      | none => (.error .readFailed, [])
      | some (d, r1) =>
        if 5 ≤ be32 d then (.error .markedIgnore, r1.drop (be32 d - 5))
        else (.error .markedIgnore, r1)
    else if hdrb ≠ 0 then (.error .recordInvalid, r0)
    else
      match recordBodyUnmarshal r0 with
      | .error e => (.error e, [])
      | .ok (rb, r1) =>
        match readUvarint r1 with
        | none => (.error .readFailed, [])
        | some (selCount, r2) =>
          if RecordMaxSize / 64 < selCount then (.error .recordInvalid, r2)
          else
            match selectorsUnmarshal selCount r2 with
            | none => (.error .readFailed, [])
            | some (sels, r3) =>
              match r3 with
              | [] => (.error .readFailed, [])
              | walg :: r4 =>
                if walg = 1 then
                  match takeExact WharrgarblOutputSize r4 with
                  | none => (.error .readFailed, [])
                  | some (work, r5) => recordUnmarshalTail rb sels walg work r5
                else if walg ≠ 0 then (.error .unsupportedAlgorithm, r4)
                else recordUnmarshalTail rb sels walg [] r4

theorem takeExact_congr (n : Nat) (xs rest : Bytes) (h : xs.length = n) :
    takeExact n (xs ++ rest) = some (xs, rest) := by
  subst h
  exact takeExact_append xs rest

theorem readUvarint_zero (rest : Bytes) : readUvarint (0 :: rest) = some (0, rest) := by
  simp [readUvarint, readUvarintLoop]

theorem recordBodyUnmarshal_marshal (rb : RecordBody) (rest : Bytes)
    (hmv : rb.MaskedValue.length ≤ RecordMaxSize)
    (how : rb.Owner.length ≤ RecordMaxSize)
    (hcert : rb.Certificate = [] ∨ rb.Certificate.length = 32)
    (hlinks32 : rb.Links.length % 32 = 0)
    (hlinks : rb.Links.length ≤ RecordMaxSize)
    (hts : rb.Timestamp < 2 ^ 64) :
    recordBodyUnmarshal (recordBodyMarshal rb ++ rest) = .ok (rb, rest) := by
  obtain ⟨mv, ow, cert, links, ts⟩ := rb
  simp only [RecordMaxSize] at hmv how hlinks
  simp only at hcert hlinks32 hts
  have hmv64 : mv.length < 2 ^ 64 := lt_of_le_of_lt hmv (by norm_num)
  have how64 : ow.length < 2 ^ 64 := lt_of_le_of_lt how (by norm_num)
  have hl64 : links.length < 2 ^ 64 := lt_of_le_of_lt hlinks (by norm_num)
  have hnmv : ¬ ((65536 : Nat) < mv.length) := not_lt.mpr hmv
  have hnow : ¬ ((65536 : Nat) < ow.length) := not_lt.mpr how
  by_cases hl : 32 ≤ links.length
  · have hdvd : 32 ∣ links.length := Nat.dvd_of_mod_eq_zero hlinks32
    have hlc : links.length / 32 * 32 = links.length := Nat.div_mul_cancel hdvd
    have hlc0 : ¬ (links.length / 32 = 0) := by
      have : 1 ≤ links.length / 32 := (Nat.one_le_div_iff (by norm_num)).mpr hl
      omega
    have hlc64 : links.length / 32 < 2 ^ 64 := by
      have := Nat.div_le_self links.length 32
      omega
    have hmodl : links.length % 2 ^ 64 = links.length := Nat.mod_eq_of_lt hl64
    have hnl : ¬ ((65536 : Nat) < links.length) := not_lt.mpr hlinks
    rcases hcert with hc | hc
    · subst hc
      simp [recordBodyMarshal, recordBodyUnmarshal, RecordMaxSize, hl, hlc, hlc0, hmodl, hnl,
        hnmv, hnow, readUvarint_putUvarint, takeExact_congr, hmv64, how64, hlc64, hts,
        -Nat.reducePow]
    · simp [recordBodyMarshal, recordBodyUnmarshal, RecordMaxSize, hc, hl, hlc, hlc0, hmodl,
        hnl, hnmv, hnow, readUvarint_putUvarint, takeExact_congr, hmv64, how64, hlc64, hts,
        -Nat.reducePow]
  · have hl0 : links.length = 0 := by omega
    have hnil : links = [] := List.eq_nil_of_length_eq_zero hl0
    subst hnil
    rcases hcert with hc | hc
    · subst hc
      simp [recordBodyMarshal, recordBodyUnmarshal, RecordMaxSize, hnmv, hnow,
        readUvarint_putUvarint, readUvarint_zero, takeExact_congr, hmv64, how64, hts,
        -Nat.reducePow]
    · simp [recordBodyMarshal, recordBodyUnmarshal, RecordMaxSize, hc, hnmv, hnow,
        readUvarint_putUvarint, readUvarint_zero, takeExact_congr, hmv64, how64, hts,
        -Nat.reducePow]

theorem selectorUnmarshal_marshal (s : Selector) (rest : Bytes)
    (hord : s.Ordinal < 2 ^ 64) (hcl : s.Claim.length ≤ RecordMaxSize) :
    selectorUnmarshal (selectorMarshal s ++ rest) = some (s, rest) := by
  obtain ⟨od, cl⟩ := s
  simp only [RecordMaxSize] at hcl
  simp only at hord
  have hcl64 : cl.length < 2 ^ 64 := lt_of_le_of_lt hcl (by norm_num)
  have hncl : ¬ ((65536 : Nat) < cl.length) := not_lt.mpr hcl
  simp [selectorMarshal, selectorUnmarshal, RecordMaxSize, readUvarint_putUvarint,
    takeExact_congr, hord, hcl64, hncl, -Nat.reducePow]

theorem selectorsUnmarshal_marshal (sels : List Selector) (rest : Bytes)
    (h : ∀ s ∈ sels, s.Ordinal < 2 ^ 64 ∧ s.Claim.length ≤ RecordMaxSize) :
    selectorsUnmarshal sels.length ((sels.map selectorMarshal).flatten ++ rest) = some (sels, rest) := by
  induction sels with
  | nil => rfl
  | cons s ss ih =>
    have hs := h s (by simp)
    have hss : ∀ x ∈ ss, x.Ordinal < 2 ^ 64 ∧ x.Claim.length ≤ RecordMaxSize := by
      intro x hx
      exact h x (by simp [hx])
    simp only [List.length_cons, List.map_cons, List.flatten_cons, List.append_assoc, selectorsUnmarshal]
    simp only [selectorUnmarshal_marshal s _ hs.1 hs.2, ih hss]

theorem recordBodyMarshal_length_ge (rb : RecordBody) :
    rb.MaskedValue.length ≤ (recordBodyMarshal rb).length ∧
    rb.Owner.length ≤ (recordBodyMarshal rb).length ∧
    rb.Links.length / 32 * 32 ≤ (recordBodyMarshal rb).length := by
  have hle : rb.Links.length / 32 * 32 ≤ rb.Links.length := Nat.div_mul_le_self _ _
  by_cases hc : rb.Certificate.length = 32 <;> by_cases hl : 32 ≤ rb.Links.length <;>
    simp [recordBodyMarshal, hc, hl, List.length_take] <;> omega

theorem selectorMarshal_length_ge (s : Selector) :
    s.Claim.length ≤ (selectorMarshal s).length := by
  simp [selectorMarshal]
  omega

theorem recordMarshal_length_ge (r : Record) :
    (recordBodyMarshal r.recordBody).length ≤ (recordMarshal r).length ∧
    r.Signature.length ≤ (recordMarshal r).length ∧
    ∀ s ∈ r.Selectors, (selectorMarshal s).length ≤ (recordMarshal r).length := by
  refine ⟨?_, ?_, ?_⟩
  · simp [recordMarshal]
    omega
  · simp [recordMarshal]
    omega
  · intro s hs
    have hmem : (selectorMarshal s).length ∈ (r.Selectors.map selectorMarshal).map List.length :=
      List.mem_map.mpr ⟨selectorMarshal s, List.mem_map.mpr ⟨s, hs, rfl⟩, rfl⟩
    have hsum : (selectorMarshal s).length ≤ ((r.Selectors.map selectorMarshal).map List.length).sum :=
      List.single_le_sum (fun _ _ => Nat.zero_le _) _ hmem
    have hflat : ((r.Selectors.map selectorMarshal).map List.length).sum
        ≤ (recordMarshal r).length := by
      simp [recordMarshal, List.length_flatten]
      omega
    omega

/-- C1 (amended round-trip): decoding the serialization of a well-formed
record, with any trailing bytes, recovers exactly the record and leaves the
trailing bytes unconsumed; consequently re-encoding the decoded record
yields bytes identical to the original encoding.  Beyond the claim's
well-formedness (links a multiple of 32 bytes, certificate absent or 32
bytes, serialized length at most RecordMaxSize) this needs: the timestamp
and selector ordinals fit in 64 bits (they are Go uint64 values), at most
RecordMaxSize/64 = 1024 selectors, and the work algorithm is None with empty
work or Wharrgarbl with work of exactly WharrgarblOutputSize bytes. -/
theorem recordUnmarshal_recordMarshal (r : Record) (extra : Bytes)
    (hcert : r.recordBody.Certificate = [] ∨ r.recordBody.Certificate.length = 32)
    (hlinks32 : r.recordBody.Links.length % 32 = 0)
    (hsize : (recordMarshal r).length ≤ RecordMaxSize)
    (hts : r.recordBody.Timestamp < 2 ^ 64)
    (hords : ∀ s ∈ r.Selectors, s.Ordinal < 2 ^ 64)
    (hselcount : r.Selectors.length ≤ 1024)
    (hwork : (r.WorkAlgorithm = 0 ∧ r.Work = []) ∨
             (r.WorkAlgorithm = 1 ∧ r.Work.length = WharrgarblOutputSize)) :
    recordUnmarshal (recordMarshal r ++ extra) = (.ok r, extra) := by
  have hbody := recordBodyMarshal_length_ge r.recordBody
  have hrec := recordMarshal_length_ge r
  simp only [RecordMaxSize] at hsize
  have hmv : r.recordBody.MaskedValue.length ≤ RecordMaxSize := by
    simp only [RecordMaxSize]
    omega
  have how : r.recordBody.Owner.length ≤ RecordMaxSize := by
    simp only [RecordMaxSize]
    omega
  have hlinkeq : r.recordBody.Links.length / 32 * 32 = r.recordBody.Links.length :=
    Nat.div_mul_cancel (Nat.dvd_of_mod_eq_zero hlinks32)
  have hlinks : r.recordBody.Links.length ≤ RecordMaxSize := by
    simp only [RecordMaxSize]
    omega
  have hsig : r.Signature.length ≤ 65536 := by omega
  have hselprops : ∀ s ∈ r.Selectors, s.Ordinal < 2 ^ 64 ∧ s.Claim.length ≤ RecordMaxSize := by
    intro s hs
    refine ⟨hords s hs, ?_⟩
    have h1 := selectorMarshal_length_ge s
    have h2 := hrec.2.2 s hs
    simp only [RecordMaxSize]
    omega
  have hbodyRT := fun tail => recordBodyUnmarshal_marshal r.recordBody tail hmv how hcert hlinks32 hlinks hts
  have hselsRT := fun tail => selectorsUnmarshal_marshal r.Selectors tail hselprops
  have hsel64 : r.Selectors.length < 2 ^ 64 := by
    have : (1024 : Nat) < 2 ^ 64 := by norm_num
    omega
  have hnsel : ¬ (1024 < r.Selectors.length) := not_lt.mpr hselcount
  have hnsig : ¬ ((65536 : Nat) < r.Signature.length) := not_lt.mpr hsig
  have hsig64 : r.Signature.length < 2 ^ 64 := by
    have : (65536 : Nat) < 2 ^ 64 := by norm_num
    omega
  obtain ⟨rb, sels, work, walg, sig⟩ := r
  simp only at hbodyRT hselsRT hsel64 hnsel hnsig hsig64 hwork
  rcases hwork with ⟨hw0, hwnil⟩ | ⟨hw1, hwlen⟩
  · subst hw0
    subst hwnil
    simp [recordMarshal, recordUnmarshal, recordUnmarshalTail, RecordMaxSize, hbodyRT, hselsRT,
      readUvarint_putUvarint, takeExact_congr, hsel64, hnsel, hnsig, hsig64, -Nat.reducePow]
  · subst hw1
    simp [recordMarshal, recordUnmarshal, recordUnmarshalTail, RecordMaxSize, hbodyRT, hselsRT,
      readUvarint_putUvarint, takeExact_congr, hsel64, hnsel, hnsig, hsig64, hwlen, -Nat.reducePow]

/-- A record that meets the claim's stated well-formedness conditions but
whose work algorithm byte is 2, an algorithm the decoder rejects. -/
def recordBadAlg : Record := ⟨⟨[], [], [], [], 0⟩, [], [], 2, []⟩

/-- C1 (counterexample to the claim as stated): recordBadAlg has links of
length 0 (a multiple of 32), no certificate, and a serialized length far
below 65536, yet decoding its own encoding does not yield the record back:
it fails with the unsupported-algorithm error, because the claim's
well-formedness list does not constrain the work algorithm. -/
theorem recordRoundTrip_counterexample :
    recordBadAlg.recordBody.Links.length % 32 = 0 ∧
    recordBadAlg.recordBody.Certificate = [] ∧
    (recordMarshal recordBadAlg).length ≤ RecordMaxSize ∧
    recordUnmarshal (recordMarshal recordBadAlg) = (.error .unsupportedAlgorithm, [0]) := by
  refine ⟨rfl, rfl, by decide, by decide⟩

/-- A small well-formed record used to instantiate the round-trip theorem. -/
def recordSample : Record := ⟨⟨[1, 2], [3], [], [], 5⟩, [⟨7, [9]⟩], [], 0, [4]⟩

/-- C1 (witness): the round-trip theorem applied to recordSample with two
trailing bytes. -/
theorem recordUnmarshal_recordMarshal_witness :
    recordUnmarshal (recordMarshal recordSample ++ [9, 9]) = (.ok recordSample, [9, 9]) :=
  recordUnmarshal_recordMarshal recordSample [9, 9] (Or.inl rfl) (by decide) (by decide)
    (by decide) (by decide) (by decide) (Or.inl ⟨rfl, rfl⟩)

/-- C9: a stream beginning with the 0xFF tombstone byte followed by a
big-endian 32-bit length L with L at least 5 and at least L - 5 further
bytes decodes to the marked-ignore error, and exactly L bytes of the stream
are consumed (the remainder is the input minus its first L bytes). -/
theorem recordUnmarshal_tombstone (b0 b1 b2 b3 : Nat) (tail : Bytes)
    (h5 : 5 ≤ ((b0 * 256 + b1) * 256 + b2) * 256 + b3)
    (hlen : ((b0 * 256 + b1) * 256 + b2) * 256 + b3 - 5 ≤ tail.length) :
    recordUnmarshal (255 :: b0 :: b1 :: b2 :: b3 :: tail)
      = (.error .markedIgnore, tail.drop (((b0 * 256 + b1) * 256 + b2) * 256 + b3 - 5)) ∧
    (255 :: b0 :: b1 :: b2 :: b3 :: tail).length
      - (tail.drop (((b0 * 256 + b1) * 256 + b2) * 256 + b3 - 5)).length
      = ((b0 * 256 + b1) * 256 + b2) * 256 + b3 := by
  have hbe : be32 [b0, b1, b2, b3] = ((b0 * 256 + b1) * 256 + b2) * 256 + b3 := by
    simp [be32]
  constructor
  · simp [recordUnmarshal, takeExact, hbe, h5]
  · have hdrop : (tail.drop (((b0 * 256 + b1) * 256 + b2) * 256 + b3 - 5)).length
        = tail.length - (((b0 * 256 + b1) * 256 + b2) * 256 + b3 - 5) := List.length_drop _ _
    simp only [List.length_cons, hdrop]
    omega

/-- C9 (witness): the tombstone theorem at the concrete stream
0xFF 00 00 00 06 09, whose declared length 6 requires skipping one byte. -/
theorem recordUnmarshal_tombstone_witness :
    recordUnmarshal [255, 0, 0, 0, 6, 9]
      = (.error .markedIgnore, List.drop (((0 * 256 + 0) * 256 + 0) * 256 + 6 - 5) [9]) ∧
    ([255, 0, 0, 0, 6, 9] : Bytes).length
      - (List.drop (((0 * 256 + 0) * 256 + 0) * 256 + 6 - 5) ([9] : Bytes)).length
      = ((0 * 256 + 0) * 256 + 0) * 256 + 6 :=
  recordUnmarshal_tombstone 0 0 0 6 [9] (by decide) (by decide)

/-- C10: when the varint selector count following a well-formed record body
exceeds RecordMaxSize / 64 = 1024, decoding fails with the record-invalid
error immediately after the count: whatever follows the varint (here an
arbitrary, possibly empty, remainder) is left unread, so no selector is
read or constructed. -/
theorem recordUnmarshal_selectorCountBound (rb : RecordBody) (c : Nat) (rest : Bytes)
    (hmv : rb.MaskedValue.length ≤ RecordMaxSize)
    (how : rb.Owner.length ≤ RecordMaxSize)
    (hcert : rb.Certificate = [] ∨ rb.Certificate.length = 32)
    (hlinks32 : rb.Links.length % 32 = 0)
    (hlinks : rb.Links.length ≤ RecordMaxSize)
    (hts : rb.Timestamp < 2 ^ 64)
    (hc1 : RecordMaxSize / 64 < c) (hc2 : c < 2 ^ 64) :
    recordUnmarshal (0 :: recordBodyMarshal rb ++ putUvarint c ++ rest)
      = (.error .recordInvalid, rest) := by
  have hbodyRT := recordBodyUnmarshal_marshal rb (putUvarint c ++ rest) hmv how hcert hlinks32 hlinks hts
  have hc3 : (1024 : Nat) < c := by
    simp only [RecordMaxSize] at hc1
    omega
  simp [recordUnmarshal, RecordMaxSize, hbodyRT, readUvarint_putUvarint, hc2, hc3, -Nat.reducePow]

/-- C10 (witness): the selector-count bound applied to an empty body, the
count 1025 and an empty remainder. -/
theorem recordUnmarshal_selectorCountBound_witness :
    recordUnmarshal (0 :: recordBodyMarshal ⟨[], [], [], [], 0⟩ ++ putUvarint 1025 ++ [])
      = (.error .recordInvalid, []) :=
  recordUnmarshal_selectorCountBound ⟨[], [], [], [], 0⟩ 1025 [] (by decide) (by decide)
    (Or.inl rfl) (by decide) (by decide) (by decide) (by decide) (by decide)

/-- integerSqrtRounded, the integer square root helper used by the cost
curve (it lives outside src/).  Modelled from the spec: "isqrt_round(x) is
integer square root with round-to-nearest": the floor square root s is
bumped to s + 1 exactly when x exceeds s * s + s, i.e. when the real square
root is at least s + 1/2. -/
def integerSqrtRounded (x : Nat) : Nat :=
  if Nat.sqrt x * Nat.sqrt x + Nat.sqrt x < x then Nat.sqrt x + 1 else Nat.sqrt x

/-- RecordWharrgarblCost from record.go.  For byte counts below 4 the cost
is bytes + 1 (the uint32 conversion cannot wrap there); otherwise the count
is clamped to RecordMaxSize, b is three times the count (a uint64 that
cannot wrap; the square-root helper receives it through a uint32 cast,
hence the reduction modulo 2^32), and the result
isqrt_round(b) * b * 3 - b * 8 is saturated to the uint32 maximum. -/
def RecordWharrgarblCost (bytes : Nat) : Nat :=
  if bytes < 4 then bytes + 1
  else
    let clamped := if RecordMaxSize < bytes then RecordMaxSize else bytes
    let b := clamped * 3
    let c := integerSqrtRounded (b % 2 ^ 32) * b * 3 - b * 8
    if 4294967295 < c then 4294967295 else c

/-- The cost formula exactly as the claim states it: n + 1 below 4, and
otherwise, with n clamped to RecordMaxSize and b = 3n, the value
isqrt_round(b) * b * 3 - b * 8 saturated to the uint32 maximum. -/
def recordWharrgarblCostSpec (n : Nat) : Nat :=
  if n < 4 then n + 1
  else
    let b := 3 * min n RecordMaxSize
    min (integerSqrtRounded b * b * 3 - b * 8) 4294967295

/-- RecordWharrgarblScore from record.go, in uint32 arithmetic (the explicit
reductions modulo 2^32 mirror the Go uint32 multiplications and addition). -/
def RecordWharrgarblScore (cost : Nat) : Nat :=
  if 0x0f7b0000 < cost then 0xffffa8db
  else if cost < 1 then 1
  else (cost * 16 % 4294967296 + cost / 10000 * 5369 % 4294967296) % 4294967296

theorem sqrt_of_bounds (s n : Nat) (h1 : s * s ≤ n) (h2 : n < (s + 1) * (s + 1)) :
    Nat.sqrt n = s :=
  (Nat.eq_sqrt.mpr ⟨h1, h2⟩).symm

theorem integerSqrtRounded_le (x : Nat) : Nat.sqrt x ≤ integerSqrtRounded x := by
  unfold integerSqrtRounded
  split <;> omega

theorem integerSqrtRounded_mono {a b : Nat} (h : a ≤ b) :
    integerSqrtRounded a ≤ integerSqrtRounded b := by
  unfold integerSqrtRounded
  have hs : Nat.sqrt a ≤ Nat.sqrt b := Nat.sqrt_le_sqrt h
  by_cases ha : Nat.sqrt a * Nat.sqrt a + Nat.sqrt a < a
  · rw [if_pos ha]
    by_cases hb2 : Nat.sqrt b * Nat.sqrt b + Nat.sqrt b < b
    · rw [if_pos hb2]
      omega
    · rw [if_neg hb2]
      rcases lt_or_eq_of_le hs with h1 | h1
      · omega
      · exfalso
        rw [h1] at ha
        omega
  · rw [if_neg ha]
    by_cases hb2 : Nat.sqrt b * Nat.sqrt b + Nat.sqrt b < b
    · rw [if_pos hb2]
      omega
    · rw [if_neg hb2]
      exact hs

theorem integerSqrtRounded_ge_three {b : Nat} (hb : 12 ≤ b) : 3 ≤ integerSqrtRounded b := by
  have h12 : Nat.sqrt 12 = 3 := sqrt_of_bounds 3 12 (by norm_num) (by norm_num)
  have := Nat.sqrt_le_sqrt hb
  have := integerSqrtRounded_le b
  omega

theorem costCore_mono (a b : Nat) (ha : 12 ≤ a) (hab : a ≤ b) :
    integerSqrtRounded a * a * 3 - a * 8 ≤ integerSqrtRounded b * b * 3 - b * 8 := by
  have hsa : 3 ≤ integerSqrtRounded a := integerSqrtRounded_ge_three ha
  have hsb : integerSqrtRounded a ≤ integerSqrtRounded b := integerSqrtRounded_mono hab
  obtain ⟨x, hx⟩ : ∃ x, 3 * integerSqrtRounded a = 8 + x := ⟨3 * integerSqrtRounded a - 8, by omega⟩
  obtain ⟨y, hy⟩ : ∃ y, 3 * integerSqrtRounded b = 8 + y := ⟨3 * integerSqrtRounded b - 8, by omega⟩
  have hxy : x ≤ y := by omega
  have ea : integerSqrtRounded a * a * 3 = a * 8 + a * x := by
    calc integerSqrtRounded a * a * 3 = a * (3 * integerSqrtRounded a) := by ring
    _ = a * (8 + x) := by rw [hx]
    _ = a * 8 + a * x := Nat.mul_add a 8 x
  have eb : integerSqrtRounded b * b * 3 = b * 8 + b * y := by
    calc integerSqrtRounded b * b * 3 = b * (3 * integerSqrtRounded b) := by ring
    _ = b * (8 + y) := by rw [hy]
    _ = b * 8 + b * y := Nat.mul_add b 8 y
  rw [ea, eb, Nat.add_sub_cancel_left, Nat.add_sub_cancel_left]
  exact Nat.mul_le_mul hab hxy

/-- C3: the cost function of record.go computes exactly the spec's integer
formula: n + 1 below 4; otherwise, with n clamped to RecordMaxSize and
b = 3n in 64-bit arithmetic, isqrt_round(b) * b * 3 - b * 8 saturated to the
uint32 maximum.  The second conjunct shows the subtraction never underflows
(so the truncated natural subtraction coincides with the Go uint64
subtraction), and the uint32 cast fed to the square-root helper never
truncates. -/
theorem recordWharrgarblCost_eq_spec : ∀ n : Nat,
    RecordWharrgarblCost n = recordWharrgarblCostSpec n ∧
    (4 ≤ n → 3 * min n RecordMaxSize * 8 ≤
      integerSqrtRounded (3 * min n RecordMaxSize) * (3 * min n RecordMaxSize) * 3 ∧
      3 * min n RecordMaxSize < 2 ^ 32) := by
  intro n
  have hub : min n RecordMaxSize ≤ 65536 := by
    have h := Nat.min_le_right n RecordMaxSize
    simp only [RecordMaxSize] at h
    exact h
  have hb32 : 3 * min n RecordMaxSize < 2 ^ 32 := by
    have : (2:Nat) ^ 32 = 4294967296 := by norm_num
    omega
  constructor
  · by_cases h4 : n < 4
    · simp [RecordWharrgarblCost, recordWharrgarblCostSpec, h4]
    · have hclamp : (if RecordMaxSize < n then RecordMaxSize else n) = min n RecordMaxSize := by
        rcases le_or_lt n RecordMaxSize with h | h
        · simp [Nat.not_lt.mpr h, Nat.min_eq_left h]
        · simp [h, Nat.min_eq_right (le_of_lt h)]
      have hcomm : min n RecordMaxSize * 3 = 3 * min n RecordMaxSize := Nat.mul_comm _ _
      have hmod : 3 * min n RecordMaxSize % 2 ^ 32 = 3 * min n RecordMaxSize :=
        Nat.mod_eq_of_lt hb32
      simp only [RecordWharrgarblCost, recordWharrgarblCostSpec, h4, if_false, hclamp, hcomm, hmod]
      rcases le_or_lt (integerSqrtRounded (3 * min n RecordMaxSize) * (3 * min n RecordMaxSize) * 3
          - 3 * min n RecordMaxSize * 8) 4294967295 with h | h
      · rw [if_neg (not_lt.mpr h), Nat.min_eq_left h]
      · rw [if_pos h, Nat.min_eq_right (le_of_lt h)]
  · intro hn4
    have hlb : 4 ≤ min n RecordMaxSize := by
      have : (4:Nat) ≤ RecordMaxSize := by norm_num [RecordMaxSize]
      exact le_min hn4 this
    have h12 : 12 ≤ 3 * min n RecordMaxSize := by omega
    have hs3 : 3 ≤ integerSqrtRounded (3 * min n RecordMaxSize) := integerSqrtRounded_ge_three h12
    refine ⟨?_, hb32⟩
    calc 3 * min n RecordMaxSize * 8 ≤ 3 * min n RecordMaxSize * 9 := by omega
    _ = 3 * (3 * min n RecordMaxSize) * 3 := by ring
    _ ≤ integerSqrtRounded (3 * min n RecordMaxSize) * (3 * min n RecordMaxSize) * 3 := by
        have := Nat.mul_le_mul_right (3 * min n RecordMaxSize) hs3
        omega

/-- C3 (witness): the equality and the no-underflow fact at n = 5. -/
theorem recordWharrgarblCost_eq_spec_witness :
    RecordWharrgarblCost 5 = recordWharrgarblCostSpec 5 ∧
    3 * min 5 RecordMaxSize * 8 ≤
      integerSqrtRounded (3 * min 5 RecordMaxSize) * (3 * min 5 RecordMaxSize) * 3 ∧
    3 * min 5 RecordMaxSize < 2 ^ 32 :=
  ⟨(recordWharrgarblCost_eq_spec 5).1, (recordWharrgarblCost_eq_spec 5).2 (by norm_num)⟩

/-- C4: the cost curve is monotone above the small-size cutoff. -/
theorem recordWharrgarblCost_mono (n1 n2 : Nat) (h1 : 4 ≤ n1) (h2 : n1 < n2) :
    RecordWharrgarblCost n1 ≤ RecordWharrgarblCost n2 := by
  have h14 : ¬ n1 < 4 := by omega
  have h24 : ¬ n2 < 4 := by omega
  simp only [RecordWharrgarblCost, h14, h24, if_false]
  set m1 := if RecordMaxSize < n1 then RecordMaxSize else n1 with hm1def
  set m2 := if RecordMaxSize < n2 then RecordMaxSize else n2 with hm2def
  have hm12 : m1 ≤ m2 := by
    rw [hm1def, hm2def]
    simp only [RecordMaxSize]
    split_ifs <;> omega
  have h4m : 4 ≤ m1 := by
    rw [hm1def]
    simp only [RecordMaxSize]
    split_ifs <;> omega
  have hmmax : m2 ≤ 65536 := by
    rw [hm2def]
    simp only [RecordMaxSize]
    split_ifs <;> omega
  have hp32 : (2:Nat) ^ 32 = 4294967296 := by norm_num
  have hub1 : m1 * 3 < 2 ^ 32 := by omega
  have hub2 : m2 * 3 < 2 ^ 32 := by omega
  rw [Nat.mod_eq_of_lt hub1, Nat.mod_eq_of_lt hub2]
  have hcore := costCore_mono (m1 * 3) (m2 * 3) (by omega) (by omega)
  split_ifs <;> omega

/-- C4 (witness): monotonicity applied at 4 < 5. -/
theorem recordWharrgarblCost_mono_witness :
    RecordWharrgarblCost 4 ≤ RecordWharrgarblCost 5 :=
  recordWharrgarblCost_mono 4 5 (by norm_num) (by norm_num)

/-- C5: the score function's threshold literal 0x0f7b0000 equals
RecordWharrgarblCost of RecordMaxSize; above it the score is 0xffffa8db,
at zero it is 1, and otherwise it is cost * 16 + (cost / 10000) * 5369 with
truncating division, an expression that stays below 2^32 for every
non-clamped uint32 cost, so the uint32 arithmetic never wraps. -/
theorem recordWharrgarblScore_spec :
    RecordWharrgarblCost RecordMaxSize = 0x0f7b0000 ∧
    (∀ c : Nat, c < 2 ^ 32 →
      (0x0f7b0000 < c → RecordWharrgarblScore c = 0xffffa8db) ∧
      (c = 0 → RecordWharrgarblScore c = 1) ∧
      (1 ≤ c → c ≤ 0x0f7b0000 →
        RecordWharrgarblScore c = c * 16 + c / 10000 * 5369 ∧
        c * 16 + c / 10000 * 5369 < 2 ^ 32)) := by
  constructor
  · have hs : Nat.sqrt 196608 = 443 := sqrt_of_bounds 443 196608 (by norm_num) (by norm_num)
    have hisr : integerSqrtRounded 196608 = 443 := by
      simp [integerSqrtRounded, hs]
    norm_num [RecordWharrgarblCost, RecordMaxSize, hisr]
  · intro c hc
    refine ⟨?_, ?_, ?_⟩
    · intro h
      simp [RecordWharrgarblScore, h]
    · intro h
      subst h
      simp [RecordWharrgarblScore]
    · intro h1 h2
      have hdiv : c / 10000 ≤ 25971 := by
        have h3 : c / 10000 ≤ 0x0f7b0000 / 10000 := Nat.div_le_div_right h2
        norm_num at h3
        omega
      have hmul : c / 10000 * 5369 ≤ 25971 * 5369 := Nat.mul_le_mul_right 5369 hdiv
      have h16 : c * 16 ≤ 0x0f7b0000 * 16 := Nat.mul_le_mul_right 16 h2
      have hbound : c * 16 + c / 10000 * 5369 < 2 ^ 32 := by
        have e3 : (2:Nat) ^ 32 = 4294967296 := by norm_num
        norm_num at h16 hmul
        omega
      refine ⟨?_, hbound⟩
      have hn1 : ¬ (0x0f7b0000 < c) := not_lt.mpr h2
      have hn2 : ¬ (c < 1) := by omega
      have e3 : (2:Nat) ^ 32 = 4294967296 := by norm_num
      have m1 : c * 16 % 4294967296 = c * 16 := Nat.mod_eq_of_lt (by omega)
      have m2 : c / 10000 * 5369 % 4294967296 = c / 10000 * 5369 := Nat.mod_eq_of_lt (by omega)
      have m3 : (c * 16 + c / 10000 * 5369) % 4294967296 = c * 16 + c / 10000 * 5369 :=
        Nat.mod_eq_of_lt (by omega)
      simp only [RecordWharrgarblScore, if_neg hn1, if_neg hn2, m1, m2, m3]

/-- C5 (witness): the score characterization applied at cost 20000. -/
theorem recordWharrgarblScore_spec_witness :
    (0x0f7b0000 < 20000 → RecordWharrgarblScore 20000 = 0xffffa8db) ∧
    ((20000 : Nat) = 0 → RecordWharrgarblScore 20000 = 1) ∧
    ((1 : Nat) ≤ 20000 → (20000 : Nat) ≤ 0x0f7b0000 →
      RecordWharrgarblScore 20000 = 20000 * 16 + 20000 / 10000 * 5369 ∧
      20000 * 16 + 20000 / 10000 * 5369 < 2 ^ 32) :=
  recordWharrgarblScore_spec.2 20000 (by norm_num)

/-- Big-endian 64-bit encoding, as binary.BigEndian.PutUint64. -/
def be64 (n : Nat) : Bytes :=
  [n / 2 ^ 56 % 256, n / 2 ^ 48 % 256, n / 2 ^ 40 % 256, n / 2 ^ 32 % 256,
   n / 2 ^ 24 % 256, n / 2 ^ 16 % 256, n / 2 ^ 8 % 256, n % 256]

/-- The AES-CFB IV built by NewRecordStart and recordBody.GetValue: the
first 8 bytes are the big-endian uint64 timestamp; the last 8 bytes are the
first 8 bytes of the owner public bytes when there are at least 8 of them,
and remain all zero otherwise (the copy is guarded by len(owner) >= 8, so a
shorter owner is ignored entirely). -/
def recordCfbIv (ts : Nat) (owner : Bytes) : Bytes :=
  be64 ts ++ (if 8 ≤ owner.length then owner.take 8 else List.replicate 8 0)

/-- The IV as the claim words it: the last 8 bytes are the first 8 bytes of
the owner public bytes, zero-padded when the owner public is shorter than 8
bytes. -/
def claimCfbIv (ts : Nat) (owner : Bytes) : Bytes :=
  be64 ts ++ (owner.take 8 ++ List.replicate (8 - owner.length) 0)

/-- The compression decision of NewRecordStart: for values of at least 16
bytes the LZW-compressed payload is placed behind a 0x01 flag byte, but is
discarded again (in favour of the raw value behind a 0x00 flag byte) when
compression failed or the flag byte plus the compressed payload is longer
than the original value.  The external LZW writer is a parameter that may
fail. -/
def storedPlain (compress : Bytes → Except Unit Bytes) (value : Bytes) : Bytes :=
  if 16 ≤ value.length then
    match compress value with
    | .ok comp => if value.length < comp.length + 1 then 0 :: value else 1 :: comp
    | .error _ => 0 :: value
  else 0 :: value

/-- The value masking of NewRecordStart: the external AES-256-CFB keystream
application enc(key, iv, plaintext), with key SHA-256 of the caller's
masking key and the record IV. -/
def maskValue (sha256 : Bytes → Bytes) (enc : Bytes → Bytes → Bytes → Bytes)
    (maskingKey : Bytes) (ts : Nat) (owner : Bytes) (plain : Bytes) : Bytes :=
  enc (sha256 maskingKey) (recordCfbIv ts owner) plain

/-- The flag dispatch of recordBody.GetValue after unmasking: bit 0 of the
first plaintext byte selects LZW decompression (whose failure yields an
empty value, and whose reader the Go code bounds by RecordMaxSize — that
bound is part of the external decompress parameter); otherwise the raw
payload after the flag byte is returned. -/
def unmaskedDispatch (decompress : Bytes → Except Unit Bytes) (unmasked : Bytes) : Bytes :=
  match unmasked with
  | [] => []
  | flag :: tail =>
    if flag % 2 = 1 then
      match decompress tail with
      | .ok v => v
      | .error _ => []
    else tail

/-- recordBody.GetValue from record.go: nil for an empty masked value;
otherwise the masked value is decrypted with AES-256-CFB under key
SHA-256(maskingKey) and the record IV, and the flag dispatch is applied. -/
def getValue (sha256 : Bytes → Bytes) (dec : Bytes → Bytes → Bytes → Bytes)
    (decompress : Bytes → Except Unit Bytes) (maskingKey : Bytes) (rb : RecordBody) : Bytes :=
  if rb.MaskedValue = [] then []
  else unmaskedDispatch decompress
    (dec (sha256 maskingKey) (recordCfbIv rb.Timestamp rb.Owner) rb.MaskedValue)

/-- The external cryptographic operations Record.Validate composes: the
body signing hash (recordBody.signingHash, whose Shandwich256 internals are
outside src/), SHA3-256 (HWORK), the selector claim verifier, Wharrgarbl
difficulty verification, and owner parsing / signature verification. -/
structure CryptoOps where
  sigHash : RecordBody → Bytes
  hwork : Bytes → Bytes
  verifyClaim : Selector → Bytes → Bool
  wharrVerify : Bytes → Bytes → Nat
  ownerParses : Bytes → Bool
  ownerVerify : Bytes → Bytes → Bytes → Bool

/-- The chained selector-claim signing hash: starting from the body signing
hash, each selector folds its canonical bytes in through HWORK. -/
def chainHash (hwork : Bytes → Bytes) (h : Bytes) : List Selector → Bytes
  | [] => h
  | s :: rest => chainHash hwork (hwork (h ++ selectorMarshal s)) rest

/-- The selector loop of Record.Validate: each selector's claim is verified
against the current chained hash; the first failure aborts with the
selector-claim-check-failed error, and on success the final chained hash is
returned. -/
def validateSelectors (hwork : Bytes → Bytes) (vc : Selector → Bytes → Bool) (h : Bytes) :
    List Selector → Except RecordError Bytes
  | [] => .ok h
  | s :: rest =>
    if vc s h then validateSelectors hwork vc (hwork (h ++ selectorMarshal s)) rest
    else .error .selectorClaimCheckFailed

/-- The selector loop of NewRecordStart: selector i is claimed against the
current chained hash and its bytes advance the chain. -/
def newRecordSelectors (claimFn : Bytes → Nat → Bytes → Selector) (hwork : Bytes → Bytes)
    (h : Bytes) : List (Bytes × Nat) → List Selector
  | [] => []
  | (nm, od) :: rest =>
    let s := claimFn nm od h
    s :: newRecordSelectors claimFn hwork (hwork (h ++ selectorMarshal s)) rest

/-- Record.Validate from record.go, over the external crypto operations:
empty owner fails the owner signature check; the selector loop runs as in
validateSelectors; the work hash is HWORK over the body signing hash and
all selector bytes; Wharrgarbl work must reach the cost of the billable
bytes; finally the owner is parsed and must verify the signature over
HWORK(workHash, work, algorithm byte). -/
def recordValidate (ops : CryptoOps) (r : Record) : Except RecordError Unit :=
  if r.recordBody.Owner = [] then .error .ownerSignatureCheckFailed
  else
    match validateSelectors ops.hwork ops.verifyClaim (ops.sigHash r.recordBody) r.Selectors with
    | .error e => .error e
    | .ok _ =>
      let workHash := ops.hwork (ops.sigHash r.recordBody
        ++ (r.Selectors.map selectorMarshal).flatten)
      let billable := recordBodySizeBytes r.recordBody
        + ((r.Selectors.map selectorMarshal).map List.length).sum
      let ownerCheck : Except RecordError Unit :=
        if ops.ownerParses r.recordBody.Owner then
          if ops.ownerVerify r.recordBody.Owner
              (ops.hwork (workHash ++ r.Work ++ [r.WorkAlgorithm])) r.Signature then .ok ()
          else .error .ownerSignatureCheckFailed
        else .error .ownerSignatureCheckFailed
      if r.WorkAlgorithm = 0 then ownerCheck
      else if r.WorkAlgorithm = 1 then
        if ops.wharrVerify r.Work workHash < RecordWharrgarblCost billable then
          .error .insufficientWork
        else ownerCheck
      else .error .insufficientWork

/-- NewRecordStart from record.go, over the external primitives: compress
(the LZW writer, which may fail), enc (the AES-256-CFB keystream), SHA-256,
claimFn (Selector.Claim), hwork (SHA3-256) and sigHash
(recordBody.signingHash).  Values longer than RecordMaxSize are rejected;
otherwise the masked value, owner, optional certificate, concatenated links
and timestamp form the body, the selectors are claimed along the chained
hash, and the work hash together with the billable byte count is returned.
Selector names and ordinals are paired positionally (the Go code indexes
both slices with the same index). -/
def newRecordStart (compress : Bytes → Except Unit Bytes)
    (enc : Bytes → Bytes → Bytes → Bytes) (sha256 : Bytes → Bytes)
    (claimFn : Bytes → Nat → Bytes → Selector)
    (hwork : Bytes → Bytes) (sigHash : RecordBody → Bytes)
    (value : Bytes) (links : List Bytes) (maskingKey : Bytes)
    (selNames : List Bytes) (selOrds : List Nat)
    (ownerPublic : Bytes) (certificateRecordHash : Bytes) (ts : Nat) :
    Except RecordError (Record × Bytes × Nat) :=
  if RecordMaxSize < value.length then .error .invalidParameter
  else
    let maskedValue := if value = [] then []
      else maskValue sha256 enc maskingKey ts ownerPublic (storedPlain compress value)
    let rb : RecordBody := ⟨maskedValue, ownerPublic,
      (if certificateRecordHash.length = 32 then certificateRecordHash else []),
      links.flatten, ts⟩
    let sels := newRecordSelectors claimFn hwork (sigHash rb) (selNames.zip selOrds)
    let workHash := hwork (sigHash rb ++ (sels.map selectorMarshal).flatten)
    let billable := recordBodySizeBytes rb + ((sels.map selectorMarshal).map List.length).sum
    .ok (⟨rb, sels, [], 0, []⟩, workHash, billable)

theorem validateSelectors_error_kind (hwork : Bytes → Bytes) (vc : Selector → Bytes → Bool) :
    ∀ (sels : List Selector) (h0 : Bytes) (e : RecordError),
    validateSelectors hwork vc h0 sels = .error e → e = .selectorClaimCheckFailed := by
  intro sels
  induction sels with
  | nil =>
    intro h0 e h
    exact absurd h (by simp [validateSelectors])
  | cons s rest ih =>
    intro h0 e h
    by_cases hv : vc s h0 = true
    · simp only [validateSelectors, if_pos hv] at h
      exact ih _ e h
    · simp only [validateSelectors, if_neg hv] at h
      exact (Except.error.inj h.symm)

theorem chainHash_take_succ (hwork : Bytes → Bytes) :
    ∀ (sels : List Selector) (h0 : Bytes) (i : Nat) (hi : i < sels.length),
    chainHash hwork h0 (sels.take (i + 1))
      = hwork (chainHash hwork h0 (sels.take i) ++ selectorMarshal (sels.get ⟨i, hi⟩)) := by
  intro sels
  induction sels with
  | nil =>
    intro h0 i hi
    simp at hi
  | cons s rest ih =>
    intro h0 i hi
    cases i with
    | zero => simp [chainHash]
    | succ j =>
      simp only [List.take_succ_cons, chainHash, List.get_cons_succ]
      exact ih (hwork (h0 ++ selectorMarshal s)) j (by simpa using hi)

theorem validateSelectors_error_iff (hwork : Bytes → Bytes) (vc : Selector → Bytes → Bool) :
    ∀ (sels : List Selector) (h0 : Bytes),
    (validateSelectors hwork vc h0 sels = .error .selectorClaimCheckFailed ↔
      ∃ i : Fin sels.length, vc (sels.get i) (chainHash hwork h0 (sels.take i.1)) = false) := by
  intro sels
  induction sels with
  | nil =>
    intro h0
    constructor
    · intro h
      exact absurd h (by simp [validateSelectors])
    · rintro ⟨i, -⟩
      exact absurd i.2 (by simp)
  | cons s rest ih =>
    intro h0
    by_cases hv : vc s h0 = true
    · simp only [validateSelectors, if_pos hv]
      rw [ih (hwork (h0 ++ selectorMarshal s))]
      constructor
      · rintro ⟨j, hj⟩
        refine ⟨j.succ, ?_⟩
        simpa [List.take_succ_cons, chainHash] using hj
      · rintro ⟨i, hi⟩
        obtain ⟨iv, hlt⟩ := i
        cases iv with
        | zero =>
          simp only [List.get, List.take_zero, chainHash] at hi
          exact absurd hv (by simp [hi])
        | succ j =>
          refine ⟨⟨j, by simpa using hlt⟩, ?_⟩
          simpa [List.take_succ_cons, chainHash] using hi
    · have hvf : vc s h0 = false := by simpa using hv
      simp only [validateSelectors, if_neg hv]
      constructor
      · intro _
        exact ⟨⟨0, by simp⟩, by simpa [chainHash] using hvf⟩
      · intro _
        trivial

theorem validateSelectors_append_fail (hwork : Bytes → Bytes) (vc : Selector → Bytes → Bool) :
    ∀ (pre : List Selector) (h0 : Bytes) (s : Selector) (post : List Selector),
    vc s (chainHash hwork h0 pre) = false →
    validateSelectors hwork vc h0 (pre ++ s :: post) = .error .selectorClaimCheckFailed := by
  intro pre
  induction pre with
  | nil =>
    intro h0 s post hf
    simp only [chainHash] at hf
    simp [validateSelectors, hf]
  | cons p pre ih =>
    intro h0 s post hf
    by_cases hv : vc p h0 = true
    · simp only [List.cons_append, validateSelectors, if_pos hv]
      exact ih _ s post (by simpa [chainHash] using hf)
    · simp only [List.cons_append, validateSelectors, if_neg hv]

theorem newRecordSelectors_length (claimFn : Bytes → Nat → Bytes → Selector)
    (hwork : Bytes → Bytes) : ∀ (pairs : List (Bytes × Nat)) (h0 : Bytes),
    (newRecordSelectors claimFn hwork h0 pairs).length = pairs.length := by
  intro pairs
  induction pairs with
  | nil => intro h0; rfl
  | cons p rest ih =>
    intro h0
    obtain ⟨nm, od⟩ := p
    simp [newRecordSelectors, ih]

theorem newRecordSelectors_getD (claimFn : Bytes → Nat → Bytes → Selector)
    (hwork : Bytes → Bytes) : ∀ (pairs : List (Bytes × Nat)) (h0 : Bytes) (i : Nat),
    i < pairs.length →
    (newRecordSelectors claimFn hwork h0 pairs).getD i ⟨0, []⟩
      = claimFn (pairs.getD i ([], 0)).1 (pairs.getD i ([], 0)).2
          (chainHash hwork h0 ((newRecordSelectors claimFn hwork h0 pairs).take i)) := by
  intro pairs
  induction pairs with
  | nil =>
    intro h0 i hi
    simp at hi
  | cons p rest ih =>
    intro h0 i hi
    obtain ⟨nm, od⟩ := p
    cases i with
    | zero => simp [newRecordSelectors, chainHash]
    | succ j =>
      simp only [newRecordSelectors, List.getD_cons_succ, List.take_succ_cons, chainHash]
      exact ih _ j (by simpa using hi)

theorem recordValidate_selectorError_iff (ops : CryptoOps) (r : Record)
    (hOwner : r.recordBody.Owner ≠ []) :
    (recordValidate ops r = .error .selectorClaimCheckFailed ↔
      validateSelectors ops.hwork ops.verifyClaim (ops.sigHash r.recordBody) r.Selectors
        = .error .selectorClaimCheckFailed) := by
  unfold recordValidate
  rw [if_neg hOwner]
  cases hvs : validateSelectors ops.hwork ops.verifyClaim (ops.sigHash r.recordBody) r.Selectors with
  | error e =>
    have he := validateSelectors_error_kind ops.hwork ops.verifyClaim r.Selectors _ e hvs
    subst he
    simp
  | ok hend =>
    simp only []
    constructor
    · intro h
      exfalso
      simp only [] at h
      split_ifs at h <;> simp_all
    · intro h
      exact absurd h (by simp)

/-- C2: selector-claim chaining.  (a) Under a non-empty owner, Validate
returns the selector-claim-check-failed error exactly when some selector's
claim fails to verify against the chained hash for its position; (b) the
chained hash starts at the body signing hash and advances by
hash_{i+1} = HWORK(hash_i ++ selectors[i].bytes()); (c) the loop errors as
soon as a selector fails, whatever follows it; (d) NewRecordStart claims
selector i against exactly the chained hash for position i; (e) the record
NewRecordStart returns carries those selectors. -/
theorem recordValidate_selector_chain (ops : CryptoOps) (r : Record)
    (hOwner : r.recordBody.Owner ≠ []) :
    (recordValidate ops r = .error .selectorClaimCheckFailed ↔
      ∃ i : Fin r.Selectors.length,
        ops.verifyClaim (r.Selectors.get i)
          (chainHash ops.hwork (ops.sigHash r.recordBody) (r.Selectors.take i.1)) = false) ∧
    (∀ (h0 : Bytes) (sels : List Selector), chainHash ops.hwork h0 (sels.take 0) = h0) ∧
    (∀ (h0 : Bytes) (sels : List Selector) (i : Nat) (hi : i < sels.length),
      chainHash ops.hwork h0 (sels.take (i + 1))
        = ops.hwork (chainHash ops.hwork h0 (sels.take i)
            ++ selectorMarshal (sels.get ⟨i, hi⟩))) ∧
    (∀ (h0 : Bytes) (pre : List Selector) (s : Selector) (post : List Selector),
      ops.verifyClaim s (chainHash ops.hwork h0 pre) = false →
      validateSelectors ops.hwork ops.verifyClaim h0 (pre ++ s :: post)
        = .error .selectorClaimCheckFailed) ∧
    (∀ (claimFn : Bytes → Nat → Bytes → Selector) (h0 : Bytes)
        (pairs : List (Bytes × Nat)) (i : Nat), i < pairs.length →
      (newRecordSelectors claimFn ops.hwork h0 pairs).getD i ⟨0, []⟩
        = claimFn (pairs.getD i ([], 0)).1 (pairs.getD i ([], 0)).2
            (chainHash ops.hwork h0 ((newRecordSelectors claimFn ops.hwork h0 pairs).take i))) ∧
    (∀ (compress : Bytes → Except Unit Bytes) (enc : Bytes → Bytes → Bytes → Bytes)
        (sha256 : Bytes → Bytes) (claimFn : Bytes → Nat → Bytes → Selector)
        (value : Bytes) (links : List Bytes) (maskingKey : Bytes)
        (selNames : List Bytes) (selOrds : List Nat) (ownerPublic cert : Bytes) (ts : Nat)
        (rec : Record) (wh : Bytes) (bb : Nat),
      newRecordStart compress enc sha256 claimFn ops.hwork ops.sigHash value links maskingKey
          selNames selOrds ownerPublic cert ts = .ok (rec, wh, bb) →
      rec.Selectors = newRecordSelectors claimFn ops.hwork (ops.sigHash rec.recordBody)
        (selNames.zip selOrds)) := by
  refine ⟨?_, ?_, ?_, ?_, ?_, ?_⟩
  · rw [recordValidate_selectorError_iff ops r hOwner]
    exact validateSelectors_error_iff ops.hwork ops.verifyClaim r.Selectors _
  · intro h0 sels
    simp [chainHash]
  · intro h0 sels i hi
    exact chainHash_take_succ ops.hwork sels h0 i hi
  · intro h0 pre s post hf
    exact validateSelectors_append_fail ops.hwork ops.verifyClaim pre h0 s post hf
  · intro claimFn h0 pairs i hi
    exact newRecordSelectors_getD claimFn ops.hwork pairs h0 i hi
  · intro compress enc sha256 claimFn value links maskingKey selNames selOrds ownerPublic
      cert ts rec wh bb hok
    by_cases hbig : RecordMaxSize < value.length
    · simp [newRecordStart, hbig] at hok
    · simp only [newRecordStart, if_neg hbig, Except.ok.injEq, Prod.mk.injEq] at hok
      obtain ⟨hrec, -, -⟩ := hok
      subst hrec
      rfl

/-- Concrete external operations used to instantiate the chaining theorem:
the work hash records the input length, and a claim verifies exactly when
the selector ordinal is zero. -/
def opsStub : CryptoOps :=
  ⟨fun _ => [], fun h => [h.length], fun s _ => decide (s.Ordinal = 0),
   fun _ _ => 0, fun _ => true, fun _ _ _ => true⟩

/-- A concrete record with a non-empty owner and two selectors, the second
of which fails opsStub's claim check. -/
def recStub : Record := ⟨⟨[], [7], [], [], 0⟩, [⟨0, []⟩, ⟨1, []⟩], [], 0, []⟩

/-- C2 (witness): the error characterization instantiated at opsStub and
recStub. -/
theorem recordValidate_selector_chain_witness :
    recordValidate opsStub recStub = .error .selectorClaimCheckFailed ↔
    ∃ i : Fin recStub.Selectors.length,
      opsStub.verifyClaim (recStub.Selectors.get i)
        (chainHash opsStub.hwork (opsStub.sigHash recStub.recordBody)
          (recStub.Selectors.take i.1)) = false :=
  (recordValidate_selector_chain opsStub recStub (by decide)).1

theorem storedPlain_cases (compress : Bytes → Except Unit Bytes) (value : Bytes) :
    (∃ comp, compress value = .ok comp ∧ 16 ≤ value.length ∧
      comp.length + 1 ≤ value.length ∧ storedPlain compress value = 1 :: comp) ∨
    storedPlain compress value = 0 :: value := by
  by_cases h16 : 16 ≤ value.length
  · cases hc : compress value with
    | ok comp =>
      by_cases hlt : value.length < comp.length + 1
      · right
        simp [storedPlain, h16, hc, hlt]
      · left
        exact ⟨comp, rfl, h16, by omega, by simp [storedPlain, h16, hc, hlt]⟩
    | error e =>
      right
      simp [storedPlain, h16, hc]
  · right
    simp [storedPlain, h16]

/-- C6 (amended): in NewRecordStart the stored plaintext keeps the
LZW-compressed payload behind the 0x01 flag byte exactly when the original
value is at least 16 bytes long, compression succeeded, and the compressed
payload plus the flag byte is at most (not: strictly smaller than) the
original length; in every other case, compression errors included, the raw
value follows a 0x00 flag byte.  The second conjunct ties this to
NewRecordStart: the masked value of the record it returns is the encryption
of exactly this flagged plaintext. -/
theorem storedPlain_characterization :
    ∀ (compress : Bytes → Except Unit Bytes) (value : Bytes),
    ((∃ comp, compress value = .ok comp ∧ 16 ≤ value.length ∧
        comp.length + 1 ≤ value.length ∧ storedPlain compress value = 1 :: comp) ∨
      (storedPlain compress value = 0 :: value ∧
        ¬ (16 ≤ value.length ∧ ∃ comp, compress value = .ok comp ∧
            comp.length + 1 ≤ value.length))) ∧
    (∀ (enc : Bytes → Bytes → Bytes → Bytes) (sha256 : Bytes → Bytes)
        (claimFn : Bytes → Nat → Bytes → Selector) (hwork : Bytes → Bytes)
        (sigHash : RecordBody → Bytes) (links : List Bytes) (maskingKey : Bytes)
        (selNames : List Bytes) (selOrds : List Nat) (owner cert : Bytes) (ts : Nat)
        (rec : Record) (wh : Bytes) (bb : Nat), value ≠ [] →
      newRecordStart compress enc sha256 claimFn hwork sigHash value links maskingKey
          selNames selOrds owner cert ts = .ok (rec, wh, bb) →
      rec.recordBody.MaskedValue
        = maskValue sha256 enc maskingKey ts owner (storedPlain compress value)) := by
  intro compress value
  constructor
  · by_cases h16 : 16 ≤ value.length
    · cases hc : compress value with
      | ok comp =>
        by_cases hlt : value.length < comp.length + 1
        · right
          refine ⟨by simp [storedPlain, h16, hc, hlt], ?_⟩
          rintro ⟨-, comp2, hc2, hle⟩
          have hcc : comp = comp2 := Except.ok.inj hc2
          rw [hcc] at hlt
          omega
        · left
          exact ⟨comp, rfl, h16, by omega, by simp [storedPlain, h16, hc, hlt]⟩
      | error e =>
        right
        refine ⟨by simp [storedPlain, h16, hc], ?_⟩
        rintro ⟨-, comp2, hc2, -⟩
        exact absurd hc2 (by simp)
    · right
      refine ⟨by simp [storedPlain, h16], ?_⟩
      rintro ⟨h, -⟩
      exact h16 h
  · intro enc sha256 claimFn hwork sigHash links maskingKey selNames selOrds owner cert ts
      rec wh bb hne hok
    by_cases hbig : RecordMaxSize < value.length
    · simp [newRecordStart, hbig] at hok
    · simp only [newRecordStart, if_neg hbig, if_neg hne, Except.ok.injEq, Prod.mk.injEq] at hok
      obtain ⟨hrec, -, -⟩ := hok
      subst hrec
      rfl

/-- An LZW stand-in that always shortens its input by exactly one byte, so
that the compressed payload plus the flag byte has exactly the original
length. -/
def c6Compress (v : Bytes) : Except Unit Bytes := .ok (v.drop 1)

/-- C6 (counterexample to the claim as stated): on a 16-byte value whose
compression saves exactly one byte, flag byte plus compressed payload is
not strictly smaller than the original, yet NewRecordStart's decision logic
keeps the compressed form (flag 0x01) because the code discards it only
when strictly larger. -/
theorem storedPlain_counterexample :
    16 ≤ (List.replicate 16 0 : Bytes).length ∧
    c6Compress (List.replicate 16 0) = .ok (List.replicate 15 0) ∧
    ¬ ((List.replicate 15 0 : Bytes).length + 1 < (List.replicate 16 0 : Bytes).length) ∧
    storedPlain c6Compress (List.replicate 16 0) = 1 :: List.replicate 15 0 := by
  decide

/-- External stand-ins used by witnesses: identity cipher and hash, a
failing compressor, and trivial selector claim / hashing operations. -/
def extId3 : Bytes → Bytes → Bytes → Bytes := fun _ _ x => x

def extId1 : Bytes → Bytes := fun x => x

def extNoCompress : Bytes → Except Unit Bytes := fun _ => .error ()

def extClaim : Bytes → Nat → Bytes → Selector := fun _ _ _ => ⟨0, []⟩

def extHash : Bytes → Bytes := fun _ => []

def extSigHash : RecordBody → Bytes := fun _ => []

/-- C6 (witness): the characterization applied to the failing compressor
and the one-byte value [7], whose record stores the raw flagged value. -/
theorem storedPlain_characterization_witness :
    (⟨⟨[0, 7], [], [], [], 0⟩, [], [], 0, []⟩ : Record).recordBody.MaskedValue
      = maskValue extId1 extId3 [] 0 [] (storedPlain extNoCompress [7]) :=
  (storedPlain_characterization extNoCompress [7]).2 extId3 extId1 extClaim extHash extSigHash
    [] [] [] [] [] [] 0 ⟨⟨[0, 7], [], [], [], 0⟩, [], [], 0, []⟩ [] 7
    (by decide) (by decide)

/-- C7 (amended): masking in NewRecordStart and unmasking in GetValue use
the external AES-256-CFB cipher with key SHA-256(maskingKey) and the
16-byte IV recordCfbIv, whose first 8 bytes are the big-endian uint64
timestamp and whose last 8 bytes are the first 8 bytes of the owner public
bytes when the owner public has at least 8 bytes, and all zero otherwise:
an owner shorter than 8 bytes is ignored, not zero-padded, so the claimed
take-and-pad IV agrees with the code only for owners of length 0 or at
least 8. -/
theorem recordCfbIv_spec :
    (∀ (ts : Nat) (owner : Bytes), 8 ≤ owner.length ∨ owner = [] →
      recordCfbIv ts owner = claimCfbIv ts owner) ∧
    (∀ (ts : Nat) (owner : Bytes), (recordCfbIv ts owner).length = 16) ∧
    (∀ (sha256 : Bytes → Bytes) (enc : Bytes → Bytes → Bytes → Bytes)
        (maskingKey : Bytes) (ts : Nat) (owner plain : Bytes),
      maskValue sha256 enc maskingKey ts owner plain
        = enc (sha256 maskingKey) (recordCfbIv ts owner) plain) ∧
    (∀ (sha256 : Bytes → Bytes) (dec : Bytes → Bytes → Bytes → Bytes)
        (decompress : Bytes → Except Unit Bytes) (maskingKey : Bytes) (rb : RecordBody),
      rb.MaskedValue ≠ [] →
      getValue sha256 dec decompress maskingKey rb
        = unmaskedDispatch decompress
            (dec (sha256 maskingKey) (recordCfbIv rb.Timestamp rb.Owner) rb.MaskedValue)) := by
  refine ⟨?_, ?_, ?_, ?_⟩
  · intro ts owner h
    rcases h with hle | hnil
    · have h8 : 8 - owner.length = 0 := by omega
      simp [recordCfbIv, claimCfbIv, hle, h8]
    · subst hnil
      simp [recordCfbIv, claimCfbIv]
  · intro ts owner
    by_cases hle : 8 ≤ owner.length
    · simp [recordCfbIv, be64, hle, List.length_take]
    · simp [recordCfbIv, be64, hle]
  · intro sha256 enc maskingKey ts owner plain
    rfl
  · intro sha256 dec decompress maskingKey rb h
    simp [getValue, h]

/-- A cipher stand-in that reveals the IV it was given, distinguishing the
code's IV from the claim's. -/
def c7Enc : Bytes → Bytes → Bytes → Bytes := fun _ iv data => iv ++ data

/-- C7 (counterexample to the claim as stated): for the 1-byte owner [1]
the code's masking does not use the claimed IV (timestamp then the first
owner bytes zero-padded): the code leaves the owner half of the IV entirely
zero, the claim would put 0x01 there. -/
theorem recordCfbIv_counterexample :
    maskValue extId1 c7Enc [] 0 [1] [9] ≠ c7Enc (extId1 []) (claimCfbIv 0 [1]) [9] := by
  decide

/-- C7 (witness): code IV and claimed IV agree on an 8-byte owner. -/
theorem recordCfbIv_spec_witness :
    recordCfbIv 3 [1, 2, 3, 4, 5, 6, 7, 8] = claimCfbIv 3 [1, 2, 3, 4, 5, 6, 7, 8] :=
  recordCfbIv_spec.1 3 [1, 2, 3, 4, 5, 6, 7, 8] (Or.inl (by decide))

/-- C8: value masking round-trips through record construction: for every
value of length at most RecordMaxSize (the empty value included), masking
key, timestamp, owner and certificate, and external primitives satisfying
their contracts (the CFB keystream decrypts what it encrypted and preserves
length; LZW decompression inverts successful compression of values within
the size bound), NewRecordStart succeeds and GetValue with the same masking
key on the constructed body returns the original value. -/
theorem getValue_newRecordStart (compress decompress : Bytes → Except Unit Bytes)
    (enc dec : Bytes → Bytes → Bytes → Bytes) (sha256 : Bytes → Bytes)
    (claimFn : Bytes → Nat → Bytes → Selector) (hwork : Bytes → Bytes)
    (sigHash : RecordBody → Bytes)
    (hcipher : ∀ k iv x, dec k iv (enc k iv x) = x)
    (hlen : ∀ k iv x, (enc k iv x).length = x.length)
    (hlzw : ∀ v c, v.length ≤ RecordMaxSize → compress v = .ok c → decompress c = .ok v)
    (value : Bytes) (links : List Bytes) (maskingKey : Bytes)
    (selNames : List Bytes) (selOrds : List Nat) (owner cert : Bytes) (ts : Nat)
    (hv : value.length ≤ RecordMaxSize) :
    (∃ rec wh bb, newRecordStart compress enc sha256 claimFn hwork sigHash value links
        maskingKey selNames selOrds owner cert ts = .ok (rec, wh, bb)) ∧
    (∀ (rec : Record) (wh : Bytes) (bb : Nat),
      newRecordStart compress enc sha256 claimFn hwork sigHash value links maskingKey
          selNames selOrds owner cert ts = .ok (rec, wh, bb) →
      getValue sha256 dec decompress maskingKey rec.recordBody = value) := by
  have hbig : ¬ (RecordMaxSize < value.length) := not_lt.mpr hv
  constructor
  · have hsome : ∃ out, newRecordStart compress enc sha256 claimFn hwork sigHash value links
        maskingKey selNames selOrds owner cert ts = .ok out := by
      unfold newRecordStart
      rw [if_neg hbig]
      exact ⟨_, rfl⟩
    obtain ⟨⟨rec, wh, bb⟩, hout⟩ := hsome
    exact ⟨rec, wh, bb, hout⟩
  · intro rec wh bb hok
    simp only [newRecordStart, if_neg hbig, Except.ok.injEq, Prod.mk.injEq] at hok
    obtain ⟨hrec, -, -⟩ := hok
    subst hrec
    by_cases hnil : value = []
    · subst hnil
      simp [getValue]
    · simp only [if_neg hnil]
      have hplain := storedPlain_cases compress value
      have hmv : maskValue sha256 enc maskingKey ts owner (storedPlain compress value)
          = enc (sha256 maskingKey) (recordCfbIv ts owner) (storedPlain compress value) := rfl
      have hmvlen : (maskValue sha256 enc maskingKey ts owner
          (storedPlain compress value)).length = (storedPlain compress value).length := by
        rw [hmv]
        exact hlen _ _ _
      have hspne : (storedPlain compress value).length ≠ 0 := by
        rcases hplain with ⟨comp, -, -, -, hsp⟩ | hsp <;> simp [hsp]
      have hne : maskValue sha256 enc maskingKey ts owner (storedPlain compress value) ≠ [] := by
        intro h0
        rw [h0] at hmvlen
        exact hspne hmvlen.symm
      simp only [getValue, unmaskedDispatch, if_neg hne]
      rw [hmv, hcipher]
      rcases hplain with ⟨comp, hcomp, -, -, hsp⟩ | hsp
      · rw [hsp]
        have hd := hlzw value comp hv hcomp
        simp [hd]
      · rw [hsp]
        simp

/-- C8 (witness): the masking round-trip applied with the identity cipher
and the failing compressor to the value [5]. -/
theorem getValue_newRecordStart_witness :
    getValue extId1 extId3 extNoCompress []
      ((⟨⟨[0, 5], [], [], [], 0⟩, [], [], 0, []⟩ : Record).recordBody) = [5] :=
  (getValue_newRecordStart extNoCompress extNoCompress extId3 extId3 extId1 extClaim extHash
    extSigHash (fun _ _ _ => rfl) (fun _ _ _ => rfl) (fun _ _ _ h => nomatch h)
    [5] [] [] [] [] [] [] 0 (by decide)).2
    ⟨⟨[0, 5], [], [], [], 0⟩, [], [], 0, []⟩ [] 7 (by decide)

end LF

